import Mathlib

set_option maxHeartbeats 1000000

namespace cpsm

/-- Platform path separator, from src/src/path_util.h (POSIX build). -/
def path_separator : Char := '/'

/-- Transcription of common_prefix from src/src/path_util.h: it walks both
iterables from the front and counts how many leading elements are equal,
stopping at the first difference or when either sequence ends. -/
def common_prefix {α : Type} [DecidableEq α] : List α → List α → Nat
  | [], _ => 0
  | _ :: _, [] => 0
  | x :: xs, y :: ys => if x = y then common_prefix xs ys + 1 else 0

/-- Transcription of path_distance_between from src/src/path_util.cc:
x.size() + y.size() - 2 * common_prefix(x, y), computed in unsigned
arithmetic, here as truncated Nat subtraction. -/
def path_distance_between (x y : List (List Char)) : Nat :=
  x.length + y.length - 2 * common_prefix x y

/-- Transcription of path_components_of from src/src/path_util.cc. The C++
loop repeatedly finds the first separator, pushes the prefix up to and
including it as one component, strips that prefix, and finally pushes the
separator-free residue only when it is nonempty. Here the same split is
expressed by structural recursion over the characters: a separator closes the
current component, and a non-separator character is prepended to the first
component of the remainder. -/
def path_components_of : List Char → List (List Char)
  | [] => []
  | c :: cs =>
    if c = path_separator then [c] :: path_components_of cs
    else
      match path_components_of cs with
      | [] => [[c]]
      | comp :: rest => (c :: comp) :: rest

/-- Transcription of get_nr_threads from src/src/python_extension_main.cc.
The result of Thread::hardware_concurrency is passed in as a parameter. -/
def get_nr_threads (hardware_concurrency : Nat) (max_threads : Nat) : Nat :=
  let nr_threads := hardware_concurrency
  let nr_threads := if nr_threads = 0 then 1 else nr_threads
  if max_threads ≠ 0 ∧ max_threads < nr_threads then max_threads else nr_threads

/-- kBatchSizeBytes from src/src/python_extension_main.cc: the minimum number
of bytes worth of items a worker reads from the host before matching. -/
def kBatchSizeBytes : Nat := 8192

/-- A match record for the driver model. The score stands for the
lexicographically compared score tuple of match.h (not under src/); item is
the candidate string, standing for the pair of string view and host handle. -/
structure Match where
  score : Int
  item : List Char
deriving DecidableEq

/-- One pull from the host iterator: either a candidate byte string
(PyIter_Next plus PyString_AsStringAndSize succeeded) or a host-side error
(PyString_AsStringAndSize failed). End of iteration is the end of the list. -/
inductive PullItem where
  | ok (s : List Char)
  | bad
deriving DecidableEq

/-- Why a batch collection stopped: end of the host iterator, a host-side
error while pulling, or the byte threshold was reached. -/
inductive BatchOutcome where
  | eos
  | hostErr
  | full
deriving DecidableEq

/-- Result of one worker thread: its kept matches, the exception message
stored by the Thread wrapper of par_util.h (not under src/), and whether the
worker set the shared have_python_ex flag. -/
structure WorkerResult where
  found : List Match
  exMsg : Option String
  hostErr : Bool
deriving DecidableEq

/-- Outcome of cpsm_ctrlp_match: a result list, a runtime error message
(the catch block converts a thrown Error to a host RuntimeError and returns
no value), or a propagated host exception (nullptr with the host error state
left intact). -/
inductive DriverResult where
  | ok (ms : List Match)
  | error (msg : String)
  | hostError
deriving DecidableEq

/-- The arguments of cpsm_ctrlp_match that this model tracks, with the
C-level defaults limit = -1 and max_threads = 0. -/
structure CtrlpArgs where
  query : List Char
  limit_int : Int
  max_threads_int : Int
  query_inverting_delimiter : List Char
  highlight_mode : List Char
deriving DecidableEq

/-- The batch collection loop of the worker lambda in
src/src/python_extension_main.cc (lines 211 to 228): starting from the given
byte count, keep pulling while the count is below kBatchSizeBytes; a null
pull marks end of iteration, a failed string conversion marks a host error
and aborts, and otherwise the item joins the batch and its size is added.
Returns the batch, the unconsumed remainder of the stream, and the outcome. -/
def collectBatch : Nat → List PullItem → List (List Char) × List PullItem × BatchOutcome
  | bsz, [] =>
    if bsz < kBatchSizeBytes then ([], [], BatchOutcome.eos)
    else ([], [], BatchOutcome.full)
  | bsz, item :: rest =>
    if bsz < kBatchSizeBytes then
      match item with
      | PullItem.bad => ([], rest, BatchOutcome.hostErr)
      | PullItem.ok s =>
        let r := collectBatch (bsz + s.length) rest
        (s :: r.1, r.2.1, r.2.2)
    else ([], item :: rest, BatchOutcome.full)

/-- Modelled from the spec: the per-worker heap keeps the worst of the kept
matches on top, and pop_heap followed by pop_back removes it. The Match
comparison lives in match.h, which is not under src/, so popping is modelled
as removing one minimal-score element. -/
def popWorst : List Match → List Match
  | [] => []
  | [_] => []
  | a :: b :: rest =>
    if a.score ≤ b.score then b :: popWorst (a :: rest)
    else a :: popWorst (b :: rest)

/-- The heap update of the worker lambda (lines 241 to 250 of
src/src/python_extension_main.cc): append the new match; when a limit is set
and the heap now exceeds it, pop the worst element. -/
def pushLimited (limit : Nat) (acc : List Match) (m : Match) : List Match :=
  let ms := acc ++ [m]
  if limit ≠ 0 ∧ limit < ms.length then popWorst ms else ms

/-- The per-batch matching loop of the worker lambda (lines 234 to 254 of
src/src/python_extension_main.cc). The matcher is abstracted as a function
that may raise (Except.error, caught by the Thread wrapper), reject the
candidate (none), or accept it with a score. On an exception the matches
kept so far stay in the thread-local vector. -/
def processBatch (mf : List Char → Except String (Option Int)) (limit : Nat) :
    List Match → List (List Char) → List Match × Option String
  | acc, [] => (acc, none)
  | acc, item :: rest =>
    match mf item with
    | Except.error e => (acc, some e)
    | Except.ok none => processBatch mf limit acc rest
    | Except.ok (some score) =>
        processBatch mf limit (pushLimited limit acc (Match.mk score item)) rest

/-- The worker loop of src/src/python_extension_main.cc (lines 201 to 256):
collect a batch, exit on a prior end of iteration, on a host error (setting
the shared flag), or on an empty batch, otherwise process the batch and
loop. The fuel argument only bounds the number of iterations; every call
made by runWorker supplies enough fuel for the loop to run to completion,
since each non-final iteration consumes at least one stream element. -/
def workerLoop (mf : List Char → Except String (Option Int)) (limit : Nat) :
    Nat → List Match → Bool → List PullItem → WorkerResult
  | 0, acc, _, _ => WorkerResult.mk acc none false
  | fuel + 1, acc, endIter, stream =>
    if endIter then WorkerResult.mk acc none false
    else
      match collectBatch 0 stream with
      | (_, _, BatchOutcome.hostErr) => WorkerResult.mk acc none true
      | (batch, rest, BatchOutcome.eos) =>
        if batch = [] then WorkerResult.mk acc none false
        else
          match processBatch mf limit acc batch with
          | (acc2, some e) => WorkerResult.mk acc2 (some e) false
          | (acc2, none) => workerLoop mf limit fuel acc2 true rest
      | (batch, rest, BatchOutcome.full) =>
        if batch = [] then WorkerResult.mk acc none false
        else
          match processBatch mf limit acc batch with
          | (acc2, some e) => WorkerResult.mk acc2 (some e) false
          | (acc2, none) => workerLoop mf limit fuel acc2 false rest

/-- One worker thread run on its share of the candidate stream, starting
with an empty match list and the end flag clear. -/
def runWorker (mf : List Char → Except String (Option Int)) (limit : Nat)
    (stream : List PullItem) : WorkerResult :=
  workerLoop mf limit (stream.length + 1) [] false stream

/-- The join loop of cpsm_ctrlp_match (lines 259 to 266 of
src/src/python_extension_main.cc): workers are joined in index order, and
directly after joining worker i its stored exception, if any, is thrown. On
success the total match count is returned; on error the result carries the
message together with the number of workers that had been joined when the
throw happened. -/
def joinLoop : List WorkerResult → Except (String × Nat) Nat
  | [] => Except.ok 0
  | w :: ws =>
    match w.exMsg with
    | some m => Except.error (m, 1)
    | none =>
      match joinLoop ws with
      | Except.error (m, j) => Except.error (m, j + 1)
      | Except.ok n => Except.ok (w.found.length + n)

/-- Insertion step of a best-score-first insertion sort. -/
def insertDesc (m : Match) : List Match → List Match
  | [] => [m]
  | x :: xs => if x.score ≤ m.score then m :: x :: xs else x :: insertDesc m xs

/-- Best-score-first insertion sort of the merged matches. -/
def sortDesc (ms : List Match) : List Match := ms.foldr insertDesc []

/-- Modelled from the spec: sort_limit from match.h (not under src/) sorts
the merged matches best-first and, when a positive limit is smaller than the
list length, keeps only the first limit entries. -/
def sort_limit (ms : List Match) (limit : Nat) : List Match :=
  if limit ≠ 0 ∧ limit < ms.length then (sortDesc ms).take limit else sortDesc ms

/-- The message thrown when the highlight pass fails to re-match an item
(lines 294 to 297 of src/src/python_extension_main.cc). -/
def rematchFailMsg (item : List Char) : String :=
  "failed to re-match known match " ++ String.mk item ++ " during highlight pass"

/-- The highlight re-match pass (lines 286 to 310 of
src/src/python_extension_main.cc): every sorted match is matched again; a
failure throws, aborting the request. The position-recording matcher call is
abstracted as a boolean function on the item. -/
def rematchAll (rf : List Char → Bool) : List Match → Except String Unit
  | [] => Except.ok ()
  | m :: rest =>
    if rf m.item then rematchAll rf rest
    else Except.error (rematchFailMsg m.item)

/-- The limit normalization of cpsm_ctrlp_match (line 162 of
src/src/python_extension_main.cc): non-negative values pass through,
negative values become 0, meaning unlimited. -/
def effLimit (limit_int : Int) : Nat :=
  if 0 ≤ limit_int then limit_int.toNat else 0

/-- The max_threads normalization of cpsm_ctrlp_match (lines 163 to 164 of
src/src/python_extension_main.cc): non-negative values pass through,
negative values become 0, meaning automatic. -/
def effMaxThreads (max_threads_int : Int) : Nat :=
  if 0 ≤ max_threads_int then max_threads_int.toNat else 0

/-- Modelled from the spec: str_split from str_util.h (not under src/)
splits a string on every occurrence of a single-character delimiter,
dropping the delimiter. -/
def str_split (s : List Char) (d : Char) : List (List Char) :=
  match s with
  | [] => [[]]
  | c :: rest =>
    if c = d then [] :: str_split rest d
    else
      match str_split rest d with
      | [] => [[c]]
      | seg :: segs => (c :: seg) :: segs

/-- Modelled from the spec: str_join from str_util.h (not under src/) with
the empty separator concatenates the segments. -/
def str_join (parts : List (List Char)) : List Char := parts.flatten

/-- The query inversion of cpsm_ctrlp_match (lines 143 to 150 of
src/src/python_extension_main.cc): with a one-character delimiter the query
is split on it, the segments are reversed, and the result re-joined. -/
def invertQuery (q : List Char) (delim : List Char) : List Char :=
  match delim with
  | [d] => str_join (str_split q d).reverse
  | _ => q

/-- Wraps a pure matcher as one that never raises. -/
def mfpure (pf : List Char → Option Int) : List Char → Except String (Option Int) :=
  fun s => Except.ok (pf s)

/-- The candidate strings of the successful pulls of a stream, in order. -/
def okItems : List PullItem → List (List Char)
  | [] => []
  | PullItem.ok s :: rest => s :: okItems rest
  | PullItem.bad :: rest => okItems rest

/-- The number of items of a batch that the pure matcher accepts. -/
def countMatched (pf : List Char → Option Int) (items : List (List Char)) : Nat :=
  (items.filter (fun s => (pf s).isSome)).length

/-- The number of candidates of one worker stream that the pure matcher
accepts. -/
def matchedCount (pf : List Char → Option Int) (st : List PullItem) : Nat :=
  countMatched pf (okItems st)

/-- The total number of matching candidates across all worker streams. -/
def totalMatched (pf : List Char → Option Int) (streams : List (List PullItem)) : Nat :=
  (streams.map (fun st => matchedCount pf st)).sum

/-- Cumulative byte size of a batch, as summed at line 227 of
src/src/python_extension_main.cc. -/
def bytesOf (batch : List (List Char)) : Nat := (batch.map List.length).sum

/-- One step of the per-candidate processing under a pure matcher: rejected
items leave the heap alone, accepted items are pushed with the limit. -/
def stepMatch (pf : List Char → Option Int) (limit : Nat)
    (acc : List Match) (item : List Char) : List Match :=
  match pf item with
  | none => acc
  | some score => pushLimited limit acc (Match.mk score item)

/-- The per-thread results vector of cpsm_ctrlp_match: one worker per
stream. In the source the workers share one locked iterator; here each
worker owns the sub-stream it would have pulled. -/
def workerResults (mf : List Char → Except String (Option Int)) (limit : Nat)
    (streams : List (List PullItem)) : List WorkerResult :=
  streams.map (fun st => runWorker mf limit st)

/-- The merged match list of cpsm_ctrlp_match (lines 271 to 279 of
src/src/python_extension_main.cc): per-thread match lists concatenated in
thread order. -/
def allMatches (mf : List Char → Except String (Option Int)) (limit : Nat)
    (streams : List (List PullItem)) : List Match :=
  ((workerResults mf limit streams).map (fun w => w.found)).flatten

/-- Model of cpsm_ctrlp_match from src/src/python_extension_main.cc. The
matcher of matcher.h (not under src/) is abstracted as mf for the first pass
and rf for the position-recording highlight pass; hardware concurrency and
the per-worker pull streams are parameters. The stages follow the source:
delimiter check and query inversion, limit and thread-count normalization,
parallel matching, the join loop, the have_python_ex check, merge and
sort_limit, and the highlight re-match pass. -/
def cpsm_ctrlp_match (mf : List Char → Except String (Option Int))
    (rf : List Char → Bool) (hardware_concurrency : Nat)
    (args : CtrlpArgs) (streams : List (List PullItem)) : DriverResult :=
  if 1 < args.query_inverting_delimiter.length then
    DriverResult.error "query inverting delimiter must be a single character"
  else
    let _query := invertQuery args.query args.query_inverting_delimiter
    let limit := effLimit args.limit_int
    let max_threads := effMaxThreads args.max_threads_int
    let _nr_threads := get_nr_threads hardware_concurrency max_threads
    let results := workerResults mf limit streams
    match joinLoop results with
    | Except.error (m, _) => DriverResult.error m
    | Except.ok _ =>
      if results.any (fun w => w.hostErr) then DriverResult.hostError
      else
        let sorted := sort_limit (allMatches mf limit streams) limit
        if args.highlight_mode ≠ [] ∧ args.highlight_mode ≠ ['n', 'o', 'n', 'e'] then
          match rematchAll rf sorted with
          | Except.error m => DriverResult.error m
          | Except.ok _ => DriverResult.ok sorted
        else DriverResult.ok sorted

/-- Concrete pure matcher for witnesses: accepts exactly the one-character
candidates. -/
def pf0 : List Char → Option Int := fun s => if s.length = 1 then some 1 else none

/-- Concrete highlight re-matcher that always succeeds. -/
def rf0 : List Char → Bool := fun _ => true

/-- Concrete highlight re-matcher that always fails. -/
def rf1 : List Char → Bool := fun _ => false

/-- Concrete arguments with the C-level defaults. -/
def args0 : CtrlpArgs := CtrlpArgs.mk ['a'] (-1) 0 [] []

/-- Concrete arguments with an active highlight mode. -/
def args1 : CtrlpArgs := CtrlpArgs.mk ['a'] (-1) 0 [] ['d']

/-- Concrete arguments with a two-character query inverting delimiter. -/
def args2 : CtrlpArgs := CtrlpArgs.mk ['a'] (-1) 0 ['a', 'b'] []

/-- Concrete arguments with negative limit and max_threads. -/
def args3 : CtrlpArgs := CtrlpArgs.mk ['a'] (-2) (-3) [] []

/-- Concrete single-worker pull streams: one matching and one rejected
candidate. -/
def streams0 : List (List PullItem) := [[PullItem.ok ['a'], PullItem.ok ['b', 'b']]]

/-- Concrete single-worker stream whose first pull raises a host error. -/
def stream1 : List PullItem := [PullItem.bad]

lemma common_prefix_comm {α : Type} [DecidableEq α] (x : List α) :
    ∀ y : List α, common_prefix x y = common_prefix y x := by
  induction x with
  | nil => intro y; cases y <;> rfl
  | cons a xs ih =>
    intro y
    cases y with
    | nil => rfl
    | cons b ys =>
      by_cases hab : a = b
      · subst hab
        simp [ common_prefix, ih ys]
      · have hba : ¬ b = a := fun h => hab h.symm
        simp [ common_prefix, hab, hba]

lemma common_prefix_le_left {α : Type} [DecidableEq α] (x : List α) :
    ∀ y : List α, common_prefix x y ≤ x.length := by
  induction x with
  | nil => intro y; cases y <;> simp [ common_prefix]
  | cons a xs ih =>
    intro y
    cases y with
    | nil => simp [ common_prefix]
    | cons b ys =>
      by_cases hab : a = b
      · have := ih ys
        simp [ common_prefix, hab]
        omega
      · simp [ common_prefix, hab]

/-- Claim C3: for decomposed paths x and y, path_distance_between equals
the integer value of x.length + y.length minus twice the common prefix
length (so the unsigned subtraction in the source never underflows), the
distance is non-negative, and it is symmetric. -/
theorem path_distance_between_spec (x y : List (List Char)) :
    ((path_distance_between x y : Nat) : Int) =
      (x.length : Int) + (y.length : Int) - 2 * (( common_prefix x y : Nat) : Int)
    ∧ 0 ≤ ((path_distance_between x y : Nat) : Int)
    ∧ path_distance_between x y = path_distance_between y x := by
  have hx := common_prefix_le_left x y
  have hy : common_prefix x y ≤ y.length := by
    rw [common_prefix_comm x y]
    exact common_prefix_le_left y x
  refine ⟨?_, ?_, ?_⟩
  · unfold path_distance_between
    omega
  · exact Int.natCast_nonneg _
  · unfold path_distance_between
    rw [common_prefix_comm x y]
    omega

lemma path_components_of_join (p : List Char) :
    (path_components_of p).flatten = p := by
  induction p with
  | nil => rfl
  | cons c cs ih =>
    by_cases hc : c = path_separator
    · simp only [path_components_of, if_pos hc, List.flatten_cons,
        List.singleton_append, ih]
    · simp only [path_components_of, if_neg hc]
      cases h : path_components_of cs with
      | nil =>
        have hcs : cs = [] := by
          rw [h] at ih
          simpa using ih.symm
        subst hcs
        simp
      | cons comp rest =>
        rw [h] at ih
        simp only [List.flatten_cons] at ih ⊢
        rw [List.cons_append, ih]

lemma path_components_of_dropLast_sep (p : List Char) :
    ∀ c ∈ (path_components_of p).dropLast, ∃ t, c = t ++ [path_separator] := by
  induction p with
  | nil => intro c hc; simp [path_components_of] at hc
  | cons ch cs ih =>
    intro c hc
    by_cases hch : ch = path_separator
    · rw [path_components_of] at hc
      rw [if_pos hch] at hc
      cases h : path_components_of cs with
      | nil =>
        rw [h] at hc
        simp at hc
      | cons l ls =>
        rw [h] at hc
        rw [List.dropLast_cons₂] at hc
        rcases List.mem_cons.mp hc with hc1 | hc2
        · exact ⟨[], by rw [hc1, hch]; rfl⟩
        · exact ih c (by rw [h]; exact hc2)
    · rw [path_components_of] at hc
      rw [if_neg hch] at hc
      cases h : path_components_of cs with
      | nil =>
        rw [h] at hc
        simp at hc
      | cons comp rest =>
        rw [h] at hc
        cases rest with
        | nil => simp at hc
        | cons r rs =>
          rw [List.dropLast_cons₂] at hc
          rcases List.mem_cons.mp hc with hc1 | hc2
          · have hcomp : comp ∈ (path_components_of cs).dropLast := by
              rw [h, List.dropLast_cons₂]
              exact List.mem_cons_self _ _
            obtain ⟨t, ht⟩ := ih comp hcomp
            exact ⟨ch :: t, by rw [hc1, ht]; rfl⟩
          · refine ih c ?_
            rw [h, List.dropLast_cons₂]
            exact List.mem_cons_of_mem _ hc2

/-- Claim C4: concatenating, in order, the components returned by
path_components_of reproduces the path exactly, every non-final component
ends with the path separator, and the components of the empty path are the
empty list. -/
theorem path_components_of_spec (p : List Char) :
    (path_components_of p).flatten = p
    ∧ (∀ c ∈ (path_components_of p).dropLast, c.getLast? = some path_separator)
    ∧ path_components_of ([] : List Char) = [] := by
  refine ⟨path_components_of_join p, ?_, rfl⟩
  intro c hc
  obtain ⟨t, ht⟩ := path_components_of_dropLast_sep p c hc
  rw [ht]
  exact List.getLast?_concat t

/-- Witness for C4 at the concrete path a/b. -/
theorem path_components_of_spec_witness :
    (path_components_of (['a', path_separator, 'b'] : List Char)).flatten =
      ['a', path_separator, 'b']
    ∧ (∀ c ∈ (path_components_of (['a', path_separator, 'b'] : List Char)).dropLast,
        c.getLast? = some path_separator)
    ∧ path_components_of ([] : List Char) = [] :=
  path_components_of_spec ['a', path_separator, 'b']

/-- Claim C10: every component returned by path_components_of is non-empty,
and the path separator occurs in at most one position of a component, namely
its final character: no character before the last one is the separator. -/
theorem path_components_of_wellformed (p c : List Char)
    (hc : c ∈ path_components_of p) :
    c ≠ [] ∧ ∀ x ∈ c.dropLast, x ≠ path_separator := by
  induction p generalizing c with
  | nil => simp [path_components_of] at hc
  | cons ch cs ih =>
    by_cases hch : ch = path_separator
    · rw [path_components_of] at hc
      rw [if_pos hch] at hc
      rcases List.mem_cons.mp hc with hc1 | hc2
      · subst hc1
        exact ⟨by simp, by simp⟩
      · exact ih c hc2
    · rw [path_components_of] at hc
      rw [if_neg hch] at hc
      cases h : path_components_of cs with
      | nil =>
        rw [h] at hc
        simp only [List.mem_singleton] at hc
        subst hc
        exact ⟨by simp, by simp⟩
      | cons comp rest =>
        rw [h] at hc
        rcases List.mem_cons.mp hc with hc1 | hc2
        · subst hc1
          have hcomp := ih comp (by rw [h]; exact List.mem_cons_self _ _)
          refine ⟨by simp, ?_⟩
          intro x hx
          cases hcompnil : comp with
          | nil =>
            rw [hcompnil] at hx
            simp at hx
          | cons c0 c0s =>
            rw [hcompnil, List.dropLast_cons₂] at hx
            rcases List.mem_cons.mp hx with hx1 | hx2
            · rw [hx1]; exact hch
            · exact hcomp.2 x (by rw [hcompnil]; exact hx2)
        · exact ih c (by rw [h]; exact List.mem_cons_of_mem _ hc2)

/-- Witness for C10 at the concrete path a/b and its first component. -/
theorem path_components_of_wellformed_witness :
    (['a', path_separator] : List Char) ≠ []
    ∧ ∀ x ∈ (['a', path_separator] : List Char).dropLast, x ≠ path_separator :=
  path_components_of_wellformed ['a', path_separator, 'b'] ['a', path_separator]
    (by decide)

/-- Claim C5: the number of worker threads equals
min(hardware_concurrency, max_threads) when max_threads is positive and
hardware_concurrency otherwise, with a floor of one in all cases. -/
theorem get_nr_threads_spec (hc mt : Nat) :
    get_nr_threads hc mt = Nat.max 1 (if 0 < mt then Nat.min hc mt else hc)
    ∧ 1 ≤ get_nr_threads hc mt := by
  simp only [get_nr_threads, Nat.max_def, Nat.min_def]
  constructor <;> split_ifs <;> omega

lemma popWorst_length_aux : ∀ (n : Nat) (l : List Match), l.length = n → l ≠ [] →
    (popWorst l).length = l.length - 1 := by
  intro n
  induction n with
  | zero =>
    intro l hl hne
    cases l with
    | nil => exact absurd rfl hne
    | cons a t => simp at hl
  | succ n ih =>
    intro l hl hne
    cases l with
    | nil => exact absurd rfl hne
    | cons a t =>
      cases t with
      | nil => simp [popWorst]
      | cons b r =>
        by_cases hab : a.score ≤ b.score
        · simp only [popWorst, if_pos hab, List.length_cons]
          have h1 : (a :: r).length = n := by simp at hl ⊢; omega
          rw [ih (a :: r) h1 (by simp)]
          simp only [List.length_cons]
          omega
        · simp only [popWorst, if_neg hab, List.length_cons]
          have h1 : (b :: r).length = n := by simp at hl ⊢; omega
          rw [ih (b :: r) h1 (by simp)]
          simp only [List.length_cons]
          omega

lemma popWorst_length (l : List Match) (h : l ≠ []) :
    (popWorst l).length = l.length - 1 :=
  popWorst_length_aux l.length l rfl h

lemma pushLimited_length (limit : Nat) (acc : List Match) (m : Match) :
    (pushLimited limit acc m).length =
      if limit ≠ 0 ∧ limit < acc.length + 1 then acc.length else acc.length + 1 := by
  unfold pushLimited
  simp only [List.length_append, List.length_singleton]
  by_cases h : limit ≠ 0 ∧ limit < acc.length + 1
  · rw [if_pos h, if_pos h]
    rw [popWorst_length _ (by simp)]
    simp
  · rw [if_neg h, if_neg h]
    simp

lemma processBatch_pure (pf : List Char → Option Int) (limit : Nat) :
    ∀ (items : List (List Char)) (acc : List Match),
      processBatch (mfpure pf) limit acc items =
        (List.foldl (stepMatch pf limit) acc items, none) := by
  intro items
  induction items with
  | nil => intro acc; rfl
  | cons it rest ih =>
    intro acc
    cases hit : pf it with
    | none =>
      simp only [processBatch, mfpure, hit, List.foldl_cons]
      rw [show stepMatch pf limit acc it = acc from by simp [stepMatch, hit]]
      exact ih acc
    | some sc =>
      simp only [processBatch, mfpure, hit, List.foldl_cons]
      rw [show stepMatch pf limit acc it = pushLimited limit acc (Match.mk sc it) from by
        simp [stepMatch, hit]]
      exact ih _

lemma countMatched_cons_none (pf : List Char → Option Int) (it : List Char)
    (rest : List (List Char)) (h : pf it = none) :
    countMatched pf (it :: rest) = countMatched pf rest := by
  simp [countMatched, List.filter_cons, h]

lemma countMatched_cons_some (pf : List Char → Option Int) (it : List Char)
    (rest : List (List Char)) (sc : Int) (h : pf it = some sc) :
    countMatched pf (it :: rest) = 1 + countMatched pf rest := by
  simp [countMatched, List.filter_cons, h]
  omega

lemma foldl_stepMatch_length (pf : List Char → Option Int) (limit : Nat) :
    ∀ (items : List (List Char)) (acc : List Match), (limit ≠ 0 → acc.length ≤ limit) →
      (List.foldl (stepMatch pf limit) acc items).length =
        if limit = 0 then acc.length + countMatched pf items
        else Nat.min (acc.length + countMatched pf items) limit := by
  intro items
  induction items with
  | nil =>
    intro acc hinv
    simp only [List.foldl_nil, countMatched, List.filter_nil, List.length_nil,
      Nat.add_zero]
    by_cases h : limit = 0
    · rw [if_pos h]
    · rw [if_neg h]
      have := hinv h
      simp only [Nat.min_def]
      split_ifs
      omega
  | cons it rest ih =>
    intro acc hinv
    rw [List.foldl_cons]
    cases hit : pf it with
    | none =>
      rw [show stepMatch pf limit acc it = acc from by simp [stepMatch, hit]]
      rw [ih acc hinv, countMatched_cons_none pf it rest hit]
    | some sc =>
      have hlen := pushLimited_length limit acc (Match.mk sc it)
      have hinv2 : limit ≠ 0 → (pushLimited limit acc (Match.mk sc it)).length ≤ limit := by
        intro hl
        rw [hlen]
        have := hinv hl
        split_ifs <;> omega
      rw [show stepMatch pf limit acc it = pushLimited limit acc (Match.mk sc it) from by
        simp [stepMatch, hit]]
      rw [ih _ hinv2, countMatched_cons_some pf it rest sc hit, hlen]
      by_cases h : limit = 0
      · rw [if_pos h, if_pos h, if_neg (by omega : ¬(limit ≠ 0 ∧ limit < acc.length + 1))]
        omega
      · rw [if_neg h, if_neg h]
        have := hinv h
        simp only [Nat.min_def]
        split_ifs <;> omega

lemma bytesOf_nil : bytesOf [] = 0 := rfl

lemma bytesOf_cons (s : List Char) (l : List (List Char)) :
    bytesOf (s :: l) = s.length + bytesOf l := by
  simp [bytesOf]

lemma collectBatch_take_bytes : ∀ (stream : List PullItem) (bsz : Nat) (k : Nat),
    k < ((collectBatch bsz stream).1).length →
    bsz + bytesOf (((collectBatch bsz stream).1).take k) < kBatchSizeBytes := by
  intro stream
  induction stream with
  | nil =>
    intro bsz k hk
    by_cases hb : bsz < kBatchSizeBytes <;> simp [collectBatch, hb] at hk
  | cons item rest ih =>
    intro bsz k hk
    by_cases hb : bsz < kBatchSizeBytes
    · cases item with
      | bad => simp [collectBatch, hb] at hk
      | ok s =>
        simp only [collectBatch, if_pos hb] at hk ⊢
        cases k with
        | zero => simpa [bytesOf] using hb
        | succ k =>
          simp only [List.length_cons, Nat.succ_lt_succ_iff] at hk
          simp only [List.take_succ_cons, bytesOf_cons]
          have := ih (bsz + s.length) k hk
          omega
    · simp [collectBatch, hb] at hk

lemma collectBatch_full_bytes : ∀ (stream : List PullItem) (bsz : Nat),
    (collectBatch bsz stream).2.2 = BatchOutcome.full →
    kBatchSizeBytes ≤ bsz + bytesOf ((collectBatch bsz stream).1) := by
  intro stream
  induction stream with
  | nil =>
    intro bsz h
    by_cases hb : bsz < kBatchSizeBytes
    · simp [collectBatch, hb] at h
    · simp [collectBatch, hb, bytesOf]
      omega
  | cons item rest ih =>
    intro bsz h
    by_cases hb : bsz < kBatchSizeBytes
    · cases item with
      | bad => simp [collectBatch, hb] at h
      | ok s =>
        simp only [collectBatch, if_pos hb] at h ⊢
        have := ih (bsz + s.length) h
        rw [bytesOf_cons]
        omega
    · simp [collectBatch, hb, bytesOf]
      omega

lemma collectBatch_eos_rest : ∀ (stream : List PullItem) (bsz : Nat),
    (collectBatch bsz stream).2.2 = BatchOutcome.eos →
    (collectBatch bsz stream).2.1 = [] := by
  intro stream
  induction stream with
  | nil =>
    intro bsz h
    by_cases hb : bsz < kBatchSizeBytes <;> simp [collectBatch, hb]
  | cons item rest ih =>
    intro bsz h
    by_cases hb : bsz < kBatchSizeBytes
    · cases item with
      | bad => simp [collectBatch, hb] at h
      | ok s =>
        simp only [collectBatch, if_pos hb] at h ⊢
        exact ih (bsz + s.length) h
    · simp [collectBatch, hb] at h

lemma collectBatch_decomp : ∀ (stream : List PullItem) (bsz : Nat),
    (collectBatch bsz stream).2.2 ≠ BatchOutcome.hostErr →
    stream = ((collectBatch bsz stream).1).map PullItem.ok ++ (collectBatch bsz stream).2.1 := by
  intro stream
  induction stream with
  | nil =>
    intro bsz _
    by_cases hb : bsz < kBatchSizeBytes <;> simp [collectBatch, hb]
  | cons item rest ih =>
    intro bsz h
    by_cases hb : bsz < kBatchSizeBytes
    · cases item with
      | bad =>
        exfalso
        apply h
        simp [collectBatch, hb]
      | ok s =>
        simp only [collectBatch, if_pos hb] at h ⊢
        have := ih (bsz + s.length) h
        simp only [List.map_cons, List.cons_append]
        exact congrArg (fun t => PullItem.ok s :: t) this
    · simp [collectBatch, hb]

lemma collectBatch_ok_no_hostErr : ∀ (stream : List PullItem) (bsz : Nat),
    (∀ it ∈ stream, it ≠ PullItem.bad) →
    (collectBatch bsz stream).2.2 ≠ BatchOutcome.hostErr := by
  intro stream
  induction stream with
  | nil =>
    intro bsz _
    by_cases hb : bsz < kBatchSizeBytes <;> simp [collectBatch, hb]
  | cons item rest ih =>
    intro bsz hall
    by_cases hb : bsz < kBatchSizeBytes
    · cases item with
      | bad => exact absurd rfl (hall PullItem.bad (List.mem_cons_self _ _))
      | ok s =>
        simp only [collectBatch, if_pos hb]
        exact ih (bsz + s.length) (fun it hit => hall it (List.mem_cons_of_mem _ hit))
    · simp [collectBatch, hb]

lemma workerLoop_endIter (mf : List Char → Except String (Option Int))
    (limit : Nat) (fuel : Nat) (acc : List Match) (st : List PullItem) :
    workerLoop mf limit fuel acc true st = WorkerResult.mk acc none false := by
  cases fuel <;> simp [workerLoop]

lemma okItems_map_ok_append : ∀ (l : List (List Char)) (r : List PullItem),
    okItems (l.map PullItem.ok ++ r) = l ++ okItems r := by
  intro l
  induction l with
  | nil => intro r; simp
  | cons s t ih => intro r; simp [okItems, ih]

lemma workerLoop_pure (pf : List Char → Option Int) (limit : Nat) :
    ∀ (fuel : Nat) (st : List PullItem) (acc : List Match),
      st.length < fuel → (∀ it ∈ st, it ≠ PullItem.bad) →
      workerLoop (mfpure pf) limit fuel acc false st =
        WorkerResult.mk (List.foldl (stepMatch pf limit) acc (okItems st)) none false := by
  intro fuel
  induction fuel with
  | zero => intro st acc h _; omega
  | succ fuel ih =>
    intro st acc hlen hall
    rcases hcb : collectBatch 0 st with ⟨batch, rst, out⟩
    have hdec := collectBatch_decomp st 0
    have heos := collectBatch_eos_rest st 0
    have hfull := collectBatch_full_bytes st 0
    have hnoerr := collectBatch_ok_no_hostErr st 0 hall
    rw [hcb] at hdec heos hfull hnoerr
    simp only at hdec heos hfull hnoerr
    cases out with
    | hostErr => exact absurd rfl hnoerr
    | eos =>
      have hrst : rst = [] := heos rfl
      have hstream : st = batch.map PullItem.ok ++ rst := hdec (by simp)
      cases hbatch : batch with
      | nil =>
        have hst : st = [] := by
          rw [hstream, hbatch, hrst]
          rfl
        subst hst
        simp [workerLoop, hcb, hbatch, okItems]
      | cons b bs =>
        simp only [workerLoop, Bool.false_eq_true, if_false, hcb]
        rw [hbatch]
        simp only [reduceCtorEq, if_false]
        rw [← hbatch, processBatch_pure pf limit batch acc]
        simp only []
        rw [workerLoop_endIter]
        have hok : okItems st = batch := by
          rw [hstream, hrst, okItems_map_ok_append]
          simp [okItems]
        rw [hok]
    | full =>
      have hstream : st = batch.map PullItem.ok ++ rst := hdec (by simp)
      have hbytes := hfull rfl
      have hbatchne : batch ≠ [] := by
        intro hb
        rw [hb] at hbytes
        simp [bytesOf, kBatchSizeBytes] at hbytes
      have hlens : st.length = batch.length + rst.length := by
        rw [hstream]
        simp
      have hbpos : 0 < batch.length := List.length_pos.mpr hbatchne
      have hlen2 : rst.length < fuel := by omega
      have hall2 : ∀ it ∈ rst, it ≠ PullItem.bad := by
        intro it hit
        exact hall it (by rw [hstream]; exact List.mem_append_right _ hit)
      cases hbatch : batch with
      | nil => exact absurd hbatch hbatchne
      | cons b bs =>
        simp only [workerLoop, Bool.false_eq_true, if_false, hcb]
        rw [hbatch]
        simp only [reduceCtorEq, if_false]
        rw [← hbatch, processBatch_pure pf limit batch acc]
        simp only []
        rw [ih rst _ hlen2 hall2]
        have hok : okItems st = batch ++ okItems rst := by
          rw [hstream, okItems_map_ok_append]
        rw [hok, List.foldl_append]

lemma runWorker_pure (pf : List Char → Option Int) (limit : Nat)
    (st : List PullItem) (hall : ∀ it ∈ st, it ≠ PullItem.bad) :
    runWorker (mfpure pf) limit st =
      WorkerResult.mk (List.foldl (stepMatch pf limit) [] (okItems st)) none false :=
  workerLoop_pure pf limit (st.length + 1) st [] (by omega) hall

lemma joinLoop_ok : ∀ (rs : List WorkerResult), (∀ w ∈ rs, w.exMsg = none) →
    joinLoop rs = Except.ok ((rs.map (fun w => w.found.length)).sum) := by
  intro rs
  induction rs with
  | nil => intro _; rfl
  | cons w ws ih =>
    intro h
    have hw : w.exMsg = none := h w (List.mem_cons_self _ _)
    simp only [joinLoop, hw]
    rw [ih (fun x hx => h x (List.mem_cons_of_mem _ hx))]
    simp

lemma insertDesc_length (m : Match) : ∀ l : List Match,
    (insertDesc m l).length = l.length + 1 := by
  intro l
  induction l with
  | nil => rfl
  | cons x xs ih => by_cases h : x.score ≤ m.score <;> simp [insertDesc, h, ih]

lemma sortDesc_length (l : List Match) : (sortDesc l).length = l.length := by
  induction l with
  | nil => rfl
  | cons x xs ih =>
    simp only [sortDesc, List.foldr_cons] at ih ⊢
    rw [insertDesc_length, ih]
    simp

lemma sort_limit_length (ms : List Match) (limit : Nat) :
    (sort_limit ms limit).length =
      if limit = 0 then ms.length else Nat.min ms.length limit := by
  unfold sort_limit
  by_cases h : limit ≠ 0 ∧ limit < ms.length
  · rw [if_pos h, List.length_take, sortDesc_length]
    simp only [Nat.min_def]
    split_ifs <;> omega
  · rw [if_neg h, sortDesc_length]
    simp only [Nat.min_def]
    split_ifs <;> omega

lemma sum_map_min (k : Nat) : ∀ l : List Nat,
    Nat.min ((l.map (fun c => Nat.min c k)).sum) k = Nat.min l.sum k := by
  intro l
  induction l with
  | nil => simp
  | cons a t ih =>
    simp only [List.map_cons, List.sum_cons]
    simp only [Nat.min_def] at ih ⊢
    split_ifs at ih ⊢ <;> omega

lemma rematchAll_all_ok (rf : List Char → Bool) (h : ∀ s, rf s = true) :
    ∀ l : List Match, rematchAll rf l = Except.ok () := by
  intro l
  induction l with
  | nil => rfl
  | cons m rest ih => simp [rematchAll, h m.item, ih]

lemma rematchAll_fail (rf : List Char → Bool) :
    ∀ l : List Match, (∃ m ∈ l, rf m.item = false) →
      ∃ m ∈ l, rematchAll rf l = Except.error (rematchFailMsg m.item)
        ∧ rf m.item = false := by
  intro l
  induction l with
  | nil => intro h; simp at h
  | cons x xs ih =>
    intro h
    by_cases hx : rf x.item = true
    · obtain ⟨m, hm, hmf⟩ := h
      rcases List.mem_cons.mp hm with h1 | h2
      · subst h1
        rw [hx] at hmf
        exact absurd hmf (by simp)
      · obtain ⟨m2, hm2, he, hf⟩ := ih ⟨m, h2, hmf⟩
        exact ⟨m2, List.mem_cons_of_mem _ hm2, by simp [rematchAll, hx, he], hf⟩
    · have hx2 : rf x.item = false := by simpa using hx
      exact ⟨x, List.mem_cons_self _ _, by simp [rematchAll, hx2], hx2⟩

lemma ctrlp_match_pure_eval (pf : List Char → Option Int) (rf : List Char → Bool)
    (hc : Nat) (args : CtrlpArgs) (streams : List (List PullItem))
    (hdelim : args.query_inverting_delimiter.length ≤ 1)
    (hall : ∀ st ∈ streams, ∀ it ∈ st, it ≠ PullItem.bad) :
    cpsm_ctrlp_match (mfpure pf) rf hc args streams =
      (if args.highlight_mode ≠ [] ∧ args.highlight_mode ≠ ['n', 'o', 'n', 'e'] then
        match rematchAll rf (sort_limit
            (allMatches (mfpure pf) (effLimit args.limit_int) streams)
            (effLimit args.limit_int)) with
        | Except.error m => DriverResult.error m
        | Except.ok _ => DriverResult.ok (sort_limit
            (allMatches (mfpure pf) (effLimit args.limit_int) streams)
            (effLimit args.limit_int))
      else DriverResult.ok (sort_limit
          (allMatches (mfpure pf) (effLimit args.limit_int) streams)
          (effLimit args.limit_int))) := by
  have hworkers : ∀ w ∈ workerResults (mfpure pf) (effLimit args.limit_int) streams,
      w.exMsg = none ∧ w.hostErr = false := by
    intro w hw
    obtain ⟨st, hst, rfl⟩ := List.mem_map.mp hw
    rw [runWorker_pure pf _ st (hall st hst)]
    exact ⟨rfl, rfl⟩
  have hany : (workerResults (mfpure pf) (effLimit args.limit_int) streams).any
      (fun w => w.hostErr) = false := by
    rw [List.any_eq_false]
    intro w hw
    rw [(hworkers w hw).2]
    simp
  simp only [cpsm_ctrlp_match]
  rw [if_neg (show ¬ 1 < args.query_inverting_delimiter.length from by omega)]
  rw [joinLoop_ok _ (fun w hw => (hworkers w hw).1)]
  rw [hany]
  simp

lemma allMatches_pure_length (pf : List Char → Option Int) (limit : Nat)
    (streams : List (List PullItem))
    (hall : ∀ st ∈ streams, ∀ it ∈ st, it ≠ PullItem.bad) :
    (allMatches (mfpure pf) limit streams).length =
      ((streams.map (fun st =>
        if limit = 0 then matchedCount pf st
        else Nat.min (matchedCount pf st) limit)).sum) := by
  unfold allMatches workerResults
  rw [List.length_flatten, List.map_map, List.map_map]
  refine congrArg List.sum ?_
  refine List.map_congr_left ?_
  intro st hst
  simp only [Function.comp]
  rw [runWorker_pure pf limit st (hall st hst)]
  simp only []
  rw [foldl_stepMatch_length pf limit (okItems st) [] (by intro; simp)]
  simp [matchedCount]

/-- Claim C1: with a positive limit a worker heap never holds more than
limit matches after any candidate is processed, and the final merged sorted
result list of cpsm_ctrlp_match has size min(total matches, limit), where
limit 0 means unlimited. -/
theorem ctrlp_match_topk_size (pf : List Char → Option Int) (rf : List Char → Bool)
    (hc : Nat) (args : CtrlpArgs) (streams : List (List PullItem))
    (hdelim : args.query_inverting_delimiter.length ≤ 1)
    (hall : ∀ st ∈ streams, ∀ it ∈ st, it ≠ PullItem.bad)
    (hrf : ∀ s, rf s = true) :
    (∀ limit : Nat, limit ≠ 0 → ∀ (items : List (List Char)) (n : Nat),
        ((processBatch (mfpure pf) limit [] (items.take n)).1).length ≤ limit)
    ∧ ∃ ms : List Match,
        cpsm_ctrlp_match (mfpure pf) rf hc args streams = DriverResult.ok ms
        ∧ ms.length =
            (if effLimit args.limit_int = 0 then totalMatched pf streams
             else Nat.min (totalMatched pf streams) (effLimit args.limit_int)) := by
  constructor
  · intro limit hlim items n
    rw [processBatch_pure]
    simp only []
    rw [foldl_stepMatch_length pf limit _ [] (by intro; simp)]
    rw [if_neg hlim]
    simp only [Nat.min_def]
    split_ifs <;> omega
  · refine ⟨sort_limit (allMatches (mfpure pf) (effLimit args.limit_int) streams)
      (effLimit args.limit_int), ?_, ?_⟩
    · rw [ctrlp_match_pure_eval pf rf hc args streams hdelim hall]
      by_cases hm : args.highlight_mode ≠ [] ∧ args.highlight_mode ≠ ['n', 'o', 'n', 'e']
      · rw [if_pos hm, rematchAll_all_ok rf hrf]
      · rw [if_neg hm]
    · rw [sort_limit_length, allMatches_pure_length pf _ streams hall]
      by_cases hK : effLimit args.limit_int = 0
      · simp only [hK, if_true]
        simp [totalMatched]
      · simp only [hK, if_false]
        have hs := sum_map_min (effLimit args.limit_int)
          (streams.map (fun st => matchedCount pf st))
        rw [List.map_map] at hs
        simpa [totalMatched, Function.comp] using hs

/-- Witness for C1 at one worker with one matching and one rejected
candidate. -/
theorem ctrlp_match_topk_size_witness :
    (∀ limit : Nat, limit ≠ 0 → ∀ (items : List (List Char)) (n : Nat),
        ((processBatch (mfpure pf0) limit [] (items.take n)).1).length ≤ limit)
    ∧ ∃ ms : List Match,
        cpsm_ctrlp_match (mfpure pf0) rf0 1 args0 streams0 = DriverResult.ok ms
        ∧ ms.length =
            (if effLimit args0.limit_int = 0 then totalMatched pf0 streams0
             else Nat.min (totalMatched pf0 streams0) (effLimit args0.limit_int)) :=
  ctrlp_match_topk_size pf0 rf0 1 args0 streams0 (by decide) (by decide)
    (fun _ => rfl)

/-- Claim C2 counterexample: with two workers where worker 0 raised, the
join loop of the source throws right after joining worker 0; at that moment
only 1 worker of the 2 has been joined, so the error is not re-raised only
after every worker has been joined. -/
theorem joinLoop_throws_before_joining_all :
    joinLoop [WorkerResult.mk [] (some "boom") false,
      WorkerResult.mk [] none false] = Except.error ("boom", 1)
    ∧ (1 : Nat) ≠ [WorkerResult.mk [] (some "boom") false,
        WorkerResult.mk [] none false].length :=
  ⟨rfl, by decide⟩

/-- Claim C2 (amended): the driver joins workers in index order, and upon
joining the first worker whose thread stored an exception it immediately
re-raises that error; at the moment of the throw exactly the workers up to
and including the first errored one have been joined, not necessarily all. -/
theorem joinLoop_first_error (rs : List WorkerResult) (i : Nat)
    (hi : i < rs.length) (m : String)
    (hex : (rs.get ⟨i, hi⟩).exMsg = some m)
    (hfirst : ∀ (j : Nat) (hj : j < rs.length), j < i → (rs.get ⟨j, hj⟩).exMsg = none) :
    joinLoop rs = Except.error (m, i + 1) := by
  induction rs generalizing i with
  | nil => simp at hi
  | cons w ws ih =>
    cases i with
    | zero =>
      simp only [List.get] at hex
      simp [joinLoop, hex]
    | succ i =>
      have hw : w.exMsg = none := hfirst 0 (by simp) (Nat.succ_pos i)
      simp only [joinLoop, hw]
      have hi2 : i < ws.length := by simpa using hi
      have hex2 : (ws.get ⟨i, hi2⟩).exMsg = some m := by simpa using hex
      have hfirst2 : ∀ (j : Nat) (hj : j < ws.length), j < i →
          (ws.get ⟨j, hj⟩).exMsg = none := by
        intro j hj hji
        have := hfirst (j + 1) (by simpa using hj) (by omega)
        simpa using this
      rw [ih i hi2 hex2 hfirst2]

/-- Witness for the amended C2: two workers, the first errored; the loop
raises after joining exactly one worker. -/
theorem joinLoop_first_error_witness :
    joinLoop [WorkerResult.mk [] (some "boom") false,
      WorkerResult.mk [] none false] = Except.error ("boom", 0 + 1) :=
  joinLoop_first_error
    [WorkerResult.mk [] (some "boom") false, WorkerResult.mk [] none false]
    0 (by decide) "boom" rfl (fun j _ hj0 => absurd hj0 (Nat.not_lt_zero j))

/-- Claim C6: a query inverting delimiter longer than one character makes
cpsm_ctrlp_match fail with the configuration error message and return no
result list. -/
theorem ctrlp_match_delimiter_error (mf : List Char → Except String (Option Int))
    (rf : List Char → Bool) (hc : Nat) (args : CtrlpArgs)
    (streams : List (List PullItem))
    (h : 1 < args.query_inverting_delimiter.length) :
    cpsm_ctrlp_match mf rf hc args streams =
      DriverResult.error "query inverting delimiter must be a single character"
    ∧ ∀ ms : List Match, cpsm_ctrlp_match mf rf hc args streams ≠ DriverResult.ok ms := by
  have he : cpsm_ctrlp_match mf rf hc args streams =
      DriverResult.error "query inverting delimiter must be a single character" := by
    unfold cpsm_ctrlp_match
    rw [if_pos h]
  refine ⟨he, fun ms hcon => ?_⟩
  rw [he] at hcon
  exact DriverResult.noConfusion hcon

/-- Witness for C6 with a two-character delimiter. -/
theorem ctrlp_match_delimiter_error_witness :
    cpsm_ctrlp_match (mfpure pf0) rf0 1 args2 streams0 =
      DriverResult.error "query inverting delimiter must be a single character"
    ∧ ∀ ms : List Match,
        cpsm_ctrlp_match (mfpure pf0) rf0 1 args2 streams0 ≠ DriverResult.ok ms :=
  ctrlp_match_delimiter_error (mfpure pf0) rf0 1 args2 streams0 (by decide)

/-- Claim C7: in each worker iteration the batch is pulled exactly until the
cumulative byte size reaches kBatchSizeBytes = 8192 or the stream ends:
every item is pulled while the running size is still below the threshold, a
full stop implies the threshold was reached, an end-of-stream stop consumes
the whole stream, the pulled batch is an exact prefix of the stream, and a
host-side pull error makes the worker set the shared flag and return
immediately with its matches untouched. -/
theorem worker_batch_pull_spec (mf : List Char → Except String (Option Int))
    (limit : Nat) (acc : List Match) (stream : List PullItem) (fuel : Nat) :
    kBatchSizeBytes = 8192
    ∧ (∀ k, k < ((collectBatch 0 stream).1).length →
        bytesOf (((collectBatch 0 stream).1).take k) < kBatchSizeBytes)
    ∧ ((collectBatch 0 stream).2.2 = BatchOutcome.full →
        kBatchSizeBytes ≤ bytesOf ((collectBatch 0 stream).1))
    ∧ ((collectBatch 0 stream).2.2 = BatchOutcome.eos →
        (collectBatch 0 stream).2.1 = [])
    ∧ ((collectBatch 0 stream).2.2 ≠ BatchOutcome.hostErr →
        stream = ((collectBatch 0 stream).1).map PullItem.ok ++ (collectBatch 0 stream).2.1)
    ∧ ((collectBatch 0 stream).2.2 = BatchOutcome.hostErr →
        workerLoop mf limit (fuel + 1) acc false stream = WorkerResult.mk acc none true) := by
  refine ⟨rfl, ?_, ?_, collectBatch_eos_rest stream 0, collectBatch_decomp stream 0, ?_⟩
  · intro k hk
    have := collectBatch_take_bytes stream 0 k hk
    simpa using this
  · intro hf
    have := collectBatch_full_bytes stream 0 hf
    simpa using this
  · intro hh
    rcases hcb : collectBatch 0 stream with ⟨b, r, o⟩
    rw [hcb] at hh
    simp only at hh
    subst hh
    simp [workerLoop, hcb]

/-- Witness for C7 at a stream whose first pull raises a host error. -/
theorem worker_batch_pull_spec_witness :
    kBatchSizeBytes = 8192
    ∧ (∀ k, k < ((collectBatch 0 stream1).1).length →
        bytesOf (((collectBatch 0 stream1).1).take k) < kBatchSizeBytes)
    ∧ ((collectBatch 0 stream1).2.2 = BatchOutcome.full →
        kBatchSizeBytes ≤ bytesOf ((collectBatch 0 stream1).1))
    ∧ ((collectBatch 0 stream1).2.2 = BatchOutcome.eos →
        (collectBatch 0 stream1).2.1 = [])
    ∧ ((collectBatch 0 stream1).2.2 ≠ BatchOutcome.hostErr →
        stream1 = ((collectBatch 0 stream1).1).map PullItem.ok ++ (collectBatch 0 stream1).2.1)
    ∧ ((collectBatch 0 stream1).2.2 = BatchOutcome.hostErr →
        workerLoop (mfpure pf0) 0 (0 + 1) [] false stream1 =
          WorkerResult.mk [] none true) :=
  worker_batch_pull_spec (mfpure pf0) 0 [] stream1 0

/-- Claim C8: with an active highlight mode, if re-matching an item of the
final sorted list fails, cpsm_ctrlp_match aborts with the invariant
violation error and returns no result list. -/
theorem ctrlp_match_rematch_failure (pf : List Char → Option Int)
    (rf : List Char → Bool) (hc : Nat) (args : CtrlpArgs)
    (streams : List (List PullItem))
    (hdelim : args.query_inverting_delimiter.length ≤ 1)
    (hall : ∀ st ∈ streams, ∀ it ∈ st, it ≠ PullItem.bad)
    (hhm : args.highlight_mode ≠ [] ∧ args.highlight_mode ≠ ['n', 'o', 'n', 'e'])
    (hfail : ∃ m ∈ sort_limit (allMatches (mfpure pf) (effLimit args.limit_int) streams)
        (effLimit args.limit_int), rf m.item = false) :
    (∃ m ∈ sort_limit (allMatches (mfpure pf) (effLimit args.limit_int) streams)
        (effLimit args.limit_int),
      cpsm_ctrlp_match (mfpure pf) rf hc args streams =
        DriverResult.error (rematchFailMsg m.item) ∧ rf m.item = false)
    ∧ ∀ ms : List Match,
        cpsm_ctrlp_match (mfpure pf) rf hc args streams ≠ DriverResult.ok ms := by
  obtain ⟨m, hm, he, hf⟩ := rematchAll_fail rf _ hfail
  have heq : cpsm_ctrlp_match (mfpure pf) rf hc args streams =
      DriverResult.error (rematchFailMsg m.item) := by
    rw [ctrlp_match_pure_eval pf rf hc args streams hdelim hall]
    rw [if_pos hhm, he]
  refine ⟨⟨m, hm, heq, hf⟩, fun ms hcon => ?_⟩
  rw [heq] at hcon
  exact DriverResult.noConfusion hcon

/-- Witness for C8: one matching candidate, an always-failing re-matcher,
and an active highlight mode. -/
theorem ctrlp_match_rematch_failure_witness :
    (∃ m ∈ sort_limit (allMatches (mfpure pf0) (effLimit args1.limit_int) streams0)
        (effLimit args1.limit_int),
      cpsm_ctrlp_match (mfpure pf0) rf1 1 args1 streams0 =
        DriverResult.error (rematchFailMsg m.item) ∧ rf1 m.item = false)
    ∧ ∀ ms : List Match,
        cpsm_ctrlp_match (mfpure pf0) rf1 1 args1 streams0 ≠ DriverResult.ok ms :=
  ctrlp_match_rematch_failure pf0 rf1 1 args1 streams0 (by decide) (by decide)
    (by decide) (by decide)

/-- Claim C9: negative limit and max_threads values are not rejected: both
are normalized to 0 (unlimited, and automatic thread count), and the call
behaves exactly as with zeros. -/
theorem ctrlp_match_negative_args (mf : List Char → Except String (Option Int))
    (rf : List Char → Bool) (hc : Nat) (args : CtrlpArgs)
    (streams : List (List PullItem))
    (hlim : args.limit_int < 0) (hmt : args.max_threads_int < 0) :
    effLimit args.limit_int = 0
    ∧ effMaxThreads args.max_threads_int = 0
    ∧ cpsm_ctrlp_match mf rf hc args streams =
        cpsm_ctrlp_match mf rf hc
          (CtrlpArgs.mk args.query 0 0 args.query_inverting_delimiter args.highlight_mode)
          streams := by
  have h1 : effLimit args.limit_int = 0 := by
    unfold effLimit
    rw [if_neg (by omega)]
  have h2 : effMaxThreads args.max_threads_int = 0 := by
    unfold effMaxThreads
    rw [if_neg (by omega)]
  have h3 : effLimit 0 = 0 := rfl
  have h4 : effMaxThreads 0 = 0 := rfl
  refine ⟨h1, h2, ?_⟩
  unfold cpsm_ctrlp_match
  simp only [h1, h2, h3, h4]

/-- Witness for C9 at limit -2 and max_threads -3. -/
theorem ctrlp_match_negative_args_witness :
    effLimit args3.limit_int = 0
    ∧ effMaxThreads args3.max_threads_int = 0
    ∧ cpsm_ctrlp_match (mfpure pf0) rf0 1 args3 streams0 =
        cpsm_ctrlp_match (mfpure pf0) rf0 1
          (CtrlpArgs.mk args3.query 0 0 args3.query_inverting_delimiter args3.highlight_mode)
          streams0 :=
  ctrlp_match_negative_args (mfpure pf0) rf0 1 args3 streams0 (by decide) (by decide)

end cpsm
